import Mathlib

/-!
Verification of the checkpoint-leaderboard component of the maestro trainer
and of its driving loop in `maestro/trainer/models/florence_2/training.py`.

The leaderboard itself (`maestro/trainer/common/utils/leaderboard.py`) is not
part of the available sources: its definitions below are modelled from the
specification.  The training-loop definitions are shallow embeddings of the
Python source in `training.py`: external collaborators (the model, data
loaders, optimizers) are abstracted as inputs, Python floats are modelled as
rationals, and the filesystem effects of `run_training_epoch` are recorded as
an explicit list of actions.
-/

/-- Modelled from the spec: error kinds of §7 for the leaderboard component
(`maestro/trainer/common/utils/leaderboard.py` is not among the sources).
`invalidConfiguration` is raised at construction for `capacity <= 0`;
`invalidInput` for a NaN score or a duplicate epoch passed to `register`. -/
inductive LBError where
  | invalidConfiguration
  | invalidInput
deriving DecidableEq, Repr

/-- A Python float as passed to `register`: either NaN or a finite value,
the finite values being modelled as rationals (the spec only requires the
total order on finite floats). -/
inductive FVal where
  | nan
  | finite (val : ℚ)
deriving DecidableEq, Repr

/-- Modelled from the spec: §3 Entry — one retained checkpoint, with its
epoch, the path of the persisted artifact, and the validation score
(lower is better). -/
structure Entry where
  epoch : Nat
  path : String
  score : ℚ
deriving DecidableEq, Repr

/-- Modelled from the spec: §3 Leaderboard state — a fixed capacity and the
ordered collection of retained entries, kept sorted ascending by score. -/
structure CheckpointsLeaderboard where
  capacity : Nat
  entries : List Entry
deriving DecidableEq, Repr

/-- Modelled from the spec: §4.1 Construction — `new(capacity)` fails with
`InvalidConfiguration` if `capacity <= 0`, otherwise yields an empty
leaderboard with the given capacity. -/
def CheckpointsLeaderboard.new (capacity : Int) :
    Except LBError CheckpointsLeaderboard :=
  if capacity ≤ 0 then .error .invalidConfiguration
  else .ok ⟨capacity.toNat, []⟩

/-- Modelled from the spec: insertion into the score-sorted entry list.  The
new entry is placed before the first strictly greater score, hence after all
entries of equal score: per §4.1 the entry registered earlier keeps priority
on exact ties. -/
def insertSorted (e : Entry) : List Entry → List Entry
  | [] => [e]
  | x :: xs => if e.score < x.score then e :: x :: xs else x :: insertSorted e xs

/-- Modelled from the spec: §4.1 `register(epoch, path, score)`.  NaN scores
and duplicate epochs are rejected with `InvalidInput` (§7, §9 design note)
leaving the state untouched.  Below capacity the entry is inserted in sorted
position and admitted with no eviction; at capacity the score is compared
with the worst (last) entry: a strictly better score inserts the new entry
and evicts exactly the worst one, otherwise the call is rejected with the
state unchanged.  The result carries the new state together with the
`(admitted, evicted)` pair returned to the caller. -/
def register_checkpoint (lb : CheckpointsLeaderboard) (epoch : Nat)
    (path : String) (score : FVal) :
    Except LBError (CheckpointsLeaderboard × Bool × Option String) :=
  match score with
  | .nan => .error .invalidInput
  | .finite s =>
    if lb.entries.any (fun x => x.epoch == epoch) then .error .invalidInput
    else if lb.entries.length < lb.capacity then
      .ok ({ lb with entries := insertSorted ⟨epoch, path, s⟩ lb.entries },
           true, none)
    else
      match lb.entries.getLast? with
      | none => .ok (lb, false, none)
      | some worst =>
        if s < worst.score then
          .ok ({ lb with
                 entries := insertSorted ⟨epoch, path, s⟩ lb.entries.dropLast },
               true, some worst.path)
        else .ok (lb, false, none)

/-- Modelled from the spec: §4.1 `best()` — the path of the entry with the
lowest score (the first entry of the sorted list), or none when empty.
A pure read: it is a function of the state and performs no mutation. -/
def get_best_model (lb : CheckpointsLeaderboard) : Option String :=
  lb.entries.head?.map Entry.path

/-- Entries sorted ascending by score (the §3 invariant). -/
def sortedByScore (l : List Entry) : Prop :=
  l.Pairwise (fun a b => a.score ≤ b.score)

instance (l : List Entry) : Decidable (sortedByScore l) :=
  inferInstanceAs (Decidable (l.Pairwise _))

/-- One step of a register sequence: apply `register_checkpoint` and keep the
new state on success, the old state on rejection (the spec's skip-and-continue
propagation policy, §7). -/
def applyRegister (lb : CheckpointsLeaderboard) (r : Nat × String × FVal) :
    CheckpointsLeaderboard :=
  match register_checkpoint lb r.1 r.2.1 r.2.2 with
  | .ok (lb', _, _) => lb'
  | .error _ => lb

/-- A whole sequence of `register` calls. -/
def runRegisters (lb : CheckpointsLeaderboard)
    (rs : List (Nat × String × FVal)) : CheckpointsLeaderboard :=
  rs.foldl applyRegister lb

/-- Filesystem effects performed by `run_training_epoch`
(training.py:257-264) after the register call: saving the model and
processor into the checkpoint directory, and `shutil.rmtree` of an evicted
checkpoint directory. -/
inductive FsAction where
  | saveCheckpoint (path : String)
  | removeCheckpoint (path : String)
deriving DecidableEq, Repr

/-- An error escaping the embedded epoch code: an exception raised by the
leaderboard, or Python's ZeroDivisionError from the average over
`len(loader)` in `run_validation_epoch`. -/
inductive RunError where
  | lbError (e : LBError)
  | zeroDivision
deriving DecidableEq, Repr

/-- Shallow embedding of `run_validation_epoch` (training.py:267-291).  The
model forward passes are abstracted into the list of per-batch losses; the
function accumulates their sum and divides by `len(loader)`, the number of
batches.  `none` stands for Python's ZeroDivisionError on an empty loader. -/
def run_validation_epoch (batchLosses : List ℚ) : Option ℚ :=
  if batchLosses.length = 0 then none
  else some (batchLosses.sum / (batchLosses.length : ℚ))

/-- The checkpoint directory `os.path.join(configuration.training_dir,
"checkpoints", str(epoch_number))` built at training.py:251, with
`os.path.join` modelled as `/`-separated concatenation and `str` as
`Nat.repr`. -/
def checkpointDir (training_dir : String) (epoch_number : Nat) : String :=
  training_dir ++ "/checkpoints/" ++ Nat.repr epoch_number

/-- Result of one embedded `run_training_epoch` call: the leaderboard after
the call, whether the validation phase ran, the filesystem actions
performed, and the `register_checkpoint` invocations made (epoch, path). -/
structure EpochOutcome where
  lb : CheckpointsLeaderboard
  validationRan : Bool
  actions : List FsAction
  registerCalls : List (Nat × String)
deriving DecidableEq, Repr

/-- Shallow embedding of `run_training_epoch` (training.py:207-264) from the
validation guard on (the training pass only touches external state and is
dropped).  `val_loader` is `none` for Python `None`, otherwise it carries
the per-batch validation losses of this epoch.  If
`val_loader is None or len(val_loader) == 0` the function returns early
(training.py:242-243).  Otherwise the validation loss is computed, the
checkpoint is registered under `checkpointDir`, the artifact is saved iff
`should_save` and the evicted directory is removed iff
`to_remove is not None` (training.py:252-264). -/
def run_training_epoch (lb : CheckpointsLeaderboard)
    (val_loader : Option (List ℚ)) (epoch_number : Nat)
    (training_dir : String) : Except RunError EpochOutcome :=
  match val_loader with
  | none => .ok ⟨lb, false, [], []⟩
  | some batchLosses =>
    if batchLosses.length = 0 then .ok ⟨lb, false, [], []⟩
    else
      match run_validation_epoch batchLosses with
      | none => .error .zeroDivision
      | some validation_loss =>
        let checkpoint_dir := checkpointDir training_dir epoch_number
        match register_checkpoint lb epoch_number checkpoint_dir
            (.finite validation_loss) with
        | .error e => .error (.lbError e)
        | .ok (lb', should_save, to_remove) =>
          .ok ⟨lb', true,
            (if should_save then [FsAction.saveCheckpoint checkpoint_dir]
             else []) ++
            (match to_remove with
             | some p => [FsAction.removeCheckpoint p]
             | none => []),
            [(epoch_number, checkpoint_dir)]⟩

/-- The epoch loop of `run_training_loop` (training.py:193-204) over an
explicit list of epoch numbers, threading the leaderboard and concatenating
the filesystem actions and the register invocations; an uncaught exception
aborts the loop.  `val_loader` is the batch count of the fixed validation
loader (`none` for Python `None`) and `batchLoss e i` the loss of batch `i`
at epoch `e` (the loader object, and hence its length, is the same every
epoch; the losses vary with the model state). -/
def runEpochs (val_loader : Option Nat) (batchLoss : Nat → Nat → ℚ)
    (training_dir : String) :
    CheckpointsLeaderboard → List Nat →
      Except RunError
        (CheckpointsLeaderboard × List FsAction × List (Nat × String))
  | lb, [] => .ok (lb, [], [])
  | lb, e :: es =>
    match run_training_epoch lb
        (val_loader.map fun n => (List.range n).map (batchLoss e)) e
        training_dir with
    | .error err => .error err
    | .ok o =>
      match runEpochs val_loader batchLoss training_dir o.lb es with
      | .error err => .error err
      | .ok (lbf, acts, calls) =>
        .ok (lbf, o.actions ++ acts, o.registerCalls ++ calls)

/-- Shallow embedding of `run_training_loop` (training.py:177-204): it runs
`run_training_epoch` for epochs `0, 1, ..., training_epochs - 1` in order. -/
def run_training_loop (lb : CheckpointsLeaderboard) (val_loader : Option Nat)
    (batchLoss : Nat → Nat → ℚ) (training_epochs : Nat)
    (training_dir : String) :
    Except RunError
      (CheckpointsLeaderboard × List FsAction × List (Nat × String)) :=
  runEpochs val_loader batchLoss training_dir lb (List.range training_epochs)

/-- The `shutil.rmtree` actions for a returned `to_remove` value: exactly
one removal when an eviction was signalled, none otherwise. -/
def removeActions : Option String → List FsAction
  | some p => [FsAction.removeCheckpoint p]
  | none => []

/-- Decimal digit list of a natural number, most significant digit first:
the mathematical specification of `Nat.toDigits 10`. -/
def natChars (n : Nat) : List Char :=
  if _h : n < 10 then [Nat.digitChar n]
  else natChars (n / 10) ++ [Nat.digitChar (n % 10)]
termination_by n
decreasing_by
  exact Nat.div_lt_self (by omega) (by omega)

/-- Numeric value of a decimal digit character. -/
def charVal (c : Char) : Nat := c.toNat - 48

example :
    runRegisters ⟨2, []⟩
      [(0, "a", .finite 5), (1, "b", .finite 3), (2, "c", .finite 4)]
      = ⟨2, [⟨1, "b", 3⟩, ⟨2, "c", 4⟩]⟩ := by decide

example :
    register_checkpoint ⟨1, [⟨0, "a", 1⟩]⟩ 1 "b" (.finite 2) =
      .ok (⟨1, [⟨0, "a", 1⟩]⟩, false, none) := rfl

example : get_best_model ⟨3, []⟩ = none := rfl

theorem insertSorted_perm (e : Entry) (l : List Entry) :
    (insertSorted e l).Perm (e :: l) := by
  induction l with
  | nil => exact List.Perm.refl _
  | cons x xs ih =>
    simp only [insertSorted]
    split
    · exact List.Perm.refl _
    · exact (List.Perm.cons x ih).trans (List.Perm.swap e x xs)

theorem mem_insertSorted {y e : Entry} {l : List Entry} :
    y ∈ insertSorted e l ↔ y = e ∨ y ∈ l := by
  rw [(insertSorted_perm e l).mem_iff, List.mem_cons]

theorem length_insertSorted (e : Entry) (l : List Entry) :
    (insertSorted e l).length = l.length + 1 :=
  (insertSorted_perm e l).length_eq

theorem sorted_insertSorted {e : Entry} {l : List Entry}
    (hs : sortedByScore l) : sortedByScore (insertSorted e l) := by
  induction l with
  | nil => simp [insertSorted, sortedByScore]
  | cons x xs ih =>
    rw [sortedByScore, List.pairwise_cons] at hs
    obtain ⟨hx, hxs⟩ := hs
    simp only [insertSorted]
    split
    · rename_i hlt
      refine List.Pairwise.cons ?_ (List.Pairwise.cons hx hxs)
      intro y hy
      rcases List.mem_cons.mp hy with rfl | hy
      · exact le_of_lt hlt
      · exact le_of_lt (lt_of_lt_of_le hlt (hx y hy))
    · rename_i hnlt
      refine List.Pairwise.cons ?_ (ih hxs)
      intro y hy
      rcases mem_insertSorted.mp hy with rfl | hy
      · exact le_of_not_lt hnlt
      · exact hx y hy

theorem sorted_dropLast {l : List Entry} (hs : sortedByScore l) :
    sortedByScore l.dropLast :=
  hs.sublist (List.dropLast_sublist l)

/-- In a score-sorted list the last entry has the greatest score. -/
theorem sorted_getLast_max {l : List Entry} {w : Entry}
    (hs : sortedByScore l) (hw : l.getLast? = some w) :
    ∀ x ∈ l, x.score ≤ w.score := by
  induction l with
  | nil => simp at hw
  | cons a t ih =>
    rw [sortedByScore, List.pairwise_cons] at hs
    obtain ⟨ha, ht⟩ := hs
    cases t with
    | nil =>
      have hw' : a = w := by simpa using hw
      subst hw'
      simp
    | cons b t' =>
      rw [List.getLast?_cons_cons] at hw
      intro x hx
      rcases List.mem_cons.mp hx with rfl | hx
      · exact le_trans (ha b (List.mem_cons_self b t'))
          (ih ht hw b (List.mem_cons_self b t'))
      · exact ih ht hw x hx

/-- A nonempty list is a permutation of its last element consed onto the rest. -/
theorem perm_getLast_dropLast {l : List Entry} {w : Entry}
    (hw : l.getLast? = some w) : l.Perm (w :: l.dropLast) := by
  have hne : l ≠ [] := by
    intro h; subst h; simp at hw
  have hsplit := List.dropLast_append_getLast hne
  rw [List.getLast?_eq_getLast l hne, Option.some.injEq] at hw
  rw [hw] at hsplit
  nth_rewrite 1 [← hsplit]
  exact List.perm_append_singleton w l.dropLast

/-- The duplicate-epoch guard evaluates to false for a fresh epoch. -/
theorem any_epoch_eq_false {lb : CheckpointsLeaderboard} {epoch : Nat}
    (hfresh : ∀ x ∈ lb.entries, x.epoch ≠ epoch) :
    (lb.entries.any fun x => x.epoch == epoch) = false := by
  rw [List.any_eq_false]
  intro x hx
  simpa using hfresh x hx

/-- C1: postcondition of `register`.  Below capacity the new entry is inserted
(the result is a permutation of the old entries plus the new one) and the call
returns admitted = true, evicted = none.  At capacity the worst entry is the
last one (shown to carry the maximal score); a strictly better score inserts
the new entry, removes exactly the previous worst and returns evicted =
worst.path; otherwise the call returns admitted = false, evicted = none with
the state unchanged. -/
theorem C1_register_postcondition (lb : CheckpointsLeaderboard) (epoch : Nat)
    (path : String) (s : ℚ)
    (hfresh : ∀ x ∈ lb.entries, x.epoch ≠ epoch)
    (hsorted : sortedByScore lb.entries) :
    (lb.entries.length < lb.capacity →
       ∃ lb', register_checkpoint lb epoch path (.finite s) = .ok (lb', true, none) ∧
         lb'.capacity = lb.capacity ∧
         lb'.entries.Perm (⟨epoch, path, s⟩ :: lb.entries)) ∧
    (¬ lb.entries.length < lb.capacity → 0 < lb.capacity →
       ∃ worst, lb.entries.getLast? = some worst ∧
         (∀ x ∈ lb.entries, x.score ≤ worst.score) ∧
         (s < worst.score →
            ∃ lb', register_checkpoint lb epoch path (.finite s) =
                .ok (lb', true, some worst.path) ∧
              lb'.capacity = lb.capacity ∧
              lb'.entries.Perm (⟨epoch, path, s⟩ :: lb.entries.dropLast) ∧
              lb.entries.Perm (worst :: lb.entries.dropLast)) ∧
         (¬ s < worst.score →
            register_checkpoint lb epoch path (.finite s) = .ok (lb, false, none))) := by
  have hany := any_epoch_eq_false hfresh
  constructor
  · intro hlen
    refine ⟨{ lb with entries := insertSorted ⟨epoch, path, s⟩ lb.entries },
      ?_, rfl, insertSorted_perm _ _⟩
    simp [register_checkpoint, hany, hlen]
  · intro hlen hcap
    have hne : lb.entries ≠ [] := by
      intro h
      rw [h] at hlen
      exact hlen (by simpa using hcap)
    obtain ⟨w, hw⟩ : ∃ w, lb.entries.getLast? = some w := by
      cases hgl : lb.entries.getLast? with
      | none => exact absurd (List.getLast?_eq_none_iff.mp hgl) hne
      | some w => exact ⟨w, rfl⟩
    refine ⟨w, hw, sorted_getLast_max hsorted hw, ?_, ?_⟩
    · intro hlt
      refine ⟨{ lb with entries := insertSorted ⟨epoch, path, s⟩ lb.entries.dropLast },
        ?_, rfl, insertSorted_perm _ _, perm_getLast_dropLast hw⟩
      simp [register_checkpoint, hany, hlen, hw, hlt]
    · intro hnlt
      simp [register_checkpoint, hany, hlen, hw, hnlt]

/-- Structure of every successful `register` call: the capacity is unchanged
and the new entry list is either a sorted insertion into the old one (below
capacity), a sorted insertion into the old one minus its last element (an
eviction, only possible when the old list is nonempty), or unchanged. -/
theorem register_ok_entries {lb : CheckpointsLeaderboard} {epoch : Nat}
    {path : String} {score : FVal} {lb' : CheckpointsLeaderboard} {a : Bool}
    {ev : Option String}
    (h : register_checkpoint lb epoch path score = .ok (lb', a, ev)) :
    lb'.capacity = lb.capacity ∧
    (∃ s, score = FVal.finite s ∧
       ((lb.entries.length < lb.capacity ∧
           lb'.entries = insertSorted ⟨epoch, path, s⟩ lb.entries) ∨
        (¬ lb.entries.length < lb.capacity ∧ lb.entries ≠ [] ∧
           lb'.entries = insertSorted ⟨epoch, path, s⟩ lb.entries.dropLast) ∨
        lb' = lb)) := by
  cases score with
  | nan => simp [register_checkpoint] at h
  | finite s =>
    simp only [register_checkpoint] at h
    by_cases hany : (lb.entries.any fun x => x.epoch == epoch) = true
    · rw [if_pos hany] at h
      exact absurd h (by simp)
    · rw [if_neg hany] at h
      by_cases hlen : lb.entries.length < lb.capacity
      · rw [if_pos hlen] at h
        simp only [Except.ok.injEq, Prod.mk.injEq] at h
        obtain ⟨h1, -, -⟩ := h
        subst h1
        exact ⟨rfl, s, rfl, Or.inl ⟨hlen, rfl⟩⟩
      · rw [if_neg hlen] at h
        cases hw : lb.entries.getLast? with
        | none =>
          rw [hw] at h
          simp only [Except.ok.injEq, Prod.mk.injEq] at h
          obtain ⟨h1, -, -⟩ := h
          subst h1
          exact ⟨rfl, s, rfl, Or.inr (Or.inr rfl)⟩
        | some worst =>
          rw [hw] at h
          dsimp only at h
          have hne : lb.entries ≠ [] := by
            intro hnil
            rw [hnil] at hw
            simp at hw
          by_cases hlt : s < worst.score
          · rw [if_pos hlt] at h
            simp only [Except.ok.injEq, Prod.mk.injEq] at h
            obtain ⟨h1, -, -⟩ := h
            subst h1
            exact ⟨rfl, s, rfl, Or.inr (Or.inl ⟨hlen, hne, rfl⟩)⟩
          · rw [if_neg hlt] at h
            simp only [Except.ok.injEq, Prod.mk.injEq] at h
            obtain ⟨h1, -, -⟩ := h
            subst h1
            exact ⟨rfl, s, rfl, Or.inr (Or.inr rfl)⟩

theorem applyRegister_capacity (lb : CheckpointsLeaderboard)
    (r : Nat × String × FVal) : (applyRegister lb r).capacity = lb.capacity := by
  unfold applyRegister
  split
  · rename_i lb' a ev heq
    exact (register_ok_entries heq).1
  · rfl

theorem applyRegister_length (lb : CheckpointsLeaderboard)
    (r : Nat × String × FVal) (h : lb.entries.length ≤ lb.capacity) :
    (applyRegister lb r).entries.length ≤ lb.capacity := by
  unfold applyRegister
  split
  · rename_i lb' a ev heq
    obtain ⟨-, s, -, hcases⟩ := register_ok_entries heq
    rcases hcases with ⟨hlt, he⟩ | ⟨hge, hne, he⟩ | rfl
    · rw [he, length_insertSorted]
      omega
    · rw [he, length_insertSorted, List.length_dropLast]
      have : 0 < lb.entries.length := List.length_pos.mpr hne
      omega
    · exact h
  · exact h

theorem applyRegister_sorted (lb : CheckpointsLeaderboard)
    (r : Nat × String × FVal) (h : sortedByScore lb.entries) :
    sortedByScore (applyRegister lb r).entries := by
  unfold applyRegister
  split
  · rename_i lb' a ev heq
    obtain ⟨-, s, -, hcases⟩ := register_ok_entries heq
    rcases hcases with ⟨-, he⟩ | ⟨-, -, he⟩ | rfl
    · rw [he]; exact sorted_insertSorted h
    · rw [he]; exact sorted_insertSorted (sorted_dropLast h)
    · exact h
  · exact h

theorem runRegisters_capacity_length (rs : List (Nat × String × FVal)) :
    ∀ lb : CheckpointsLeaderboard, lb.entries.length ≤ lb.capacity →
      (runRegisters lb rs).capacity = lb.capacity ∧
      (runRegisters lb rs).entries.length ≤ lb.capacity := by
  induction rs with
  | nil => exact fun lb h => ⟨rfl, h⟩
  | cons r rs ih =>
    intro lb h
    have hstep : runRegisters lb (r :: rs) = runRegisters (applyRegister lb r) rs := rfl
    have hcap := applyRegister_capacity lb r
    have hlen := applyRegister_length lb r h
    obtain ⟨h1, h2⟩ := ih (applyRegister lb r) (by rw [hcap]; exact hlen)
    rw [hstep]
    exact ⟨by rw [h1, hcap], by rw [hcap] at h2; exact h2⟩

theorem runRegisters_sorted (rs : List (Nat × String × FVal)) :
    ∀ lb : CheckpointsLeaderboard, sortedByScore lb.entries →
      sortedByScore (runRegisters lb rs).entries := by
  induction rs with
  | nil => exact fun lb h => h
  | cons r rs ih => exact fun lb h => ih (applyRegister lb r) (applyRegister_sorted lb r h)

/-- C2: capacity bound — for every sequence of `register` calls on a
leaderboard constructed with positive capacity, the number of retained
entries stays at most the capacity after every call (every prefix of a call
sequence is itself a call sequence, so quantifying over all sequences covers
"after every call"). -/
theorem C2_capacity_bound (capacity : Int) (lb0 : CheckpointsLeaderboard)
    (hnew : CheckpointsLeaderboard.new capacity = .ok lb0)
    (rs : List (Nat × String × FVal)) :
    ((runRegisters lb0 rs).entries.length : Int) ≤ capacity := by
  unfold CheckpointsLeaderboard.new at hnew
  split at hnew
  · exact absurd hnew (by simp)
  · rename_i hpos
    simp only [Except.ok.injEq] at hnew
    subst hnew
    have hb := (runRegisters_capacity_length rs ⟨capacity.toNat, []⟩ (by simp)).2
    simp only at hb
    omega

theorem C2_capacity_bound_witness :
    ((runRegisters ⟨2, []⟩
        [(0, "a", FVal.finite 5), (1, "b", FVal.finite 3),
         (2, "c", FVal.finite 4)]).entries.length : Int) ≤ 2 :=
  C2_capacity_bound 2 ⟨2, []⟩ rfl
    [(0, "a", FVal.finite 5), (1, "b", FVal.finite 3), (2, "c", FVal.finite 4)]

/-- C3: sorted-order invariant — after every sequence of `register` calls on
a freshly constructed leaderboard the entries are sorted ascending by score,
and the entry at position 0 (when present) has the minimum score. -/
theorem C3_sorted_invariant (capacity : Int) (lb0 : CheckpointsLeaderboard)
    (hnew : CheckpointsLeaderboard.new capacity = .ok lb0)
    (rs : List (Nat × String × FVal)) :
    sortedByScore (runRegisters lb0 rs).entries ∧
    ∀ e, (runRegisters lb0 rs).entries.head? = some e →
      ∀ x ∈ (runRegisters lb0 rs).entries, e.score ≤ x.score := by
  have hsorted : sortedByScore (runRegisters lb0 rs).entries := by
    unfold CheckpointsLeaderboard.new at hnew
    split at hnew
    · exact absurd hnew (by simp)
    · simp only [Except.ok.injEq] at hnew
      subst hnew
      exact runRegisters_sorted rs ⟨capacity.toNat, []⟩ (by simp [sortedByScore])
  refine ⟨hsorted, ?_⟩
  intro e he x hx
  cases hL : (runRegisters lb0 rs).entries with
  | nil => rw [hL] at he; simp at he
  | cons a t =>
    rw [hL] at he hx hsorted
    have hea : a = e := by simpa using he
    subst hea
    rw [sortedByScore, List.pairwise_cons] at hsorted
    rcases List.mem_cons.mp hx with rfl | hxt
    · exact le_refl _
    · exact hsorted.1 x hxt

theorem C3_sorted_invariant_witness :
    sortedByScore (runRegisters ⟨2, []⟩
      [(0, "a", FVal.finite 5), (1, "b", FVal.finite 3),
       (2, "c", FVal.finite 4)]).entries ∧
    ∀ e, (runRegisters ⟨2, []⟩
        [(0, "a", FVal.finite 5), (1, "b", FVal.finite 3),
         (2, "c", FVal.finite 4)]).entries.head? = some e →
      ∀ x ∈ (runRegisters ⟨2, []⟩
        [(0, "a", FVal.finite 5), (1, "b", FVal.finite 3),
         (2, "c", FVal.finite 4)]).entries, e.score ≤ x.score :=
  C3_sorted_invariant 2 ⟨2, []⟩ rfl
    [(0, "a", FVal.finite 5), (1, "b", FVal.finite 3), (2, "c", FVal.finite 4)]

theorem C1_register_postcondition_witness :
    ∃ lb', register_checkpoint ⟨2, [⟨0, "a", 5⟩]⟩ 1 "b" (.finite 3) =
        .ok (lb', true, none) ∧
      lb'.capacity = 2 ∧
      lb'.entries.Perm (⟨1, "b", 3⟩ :: [⟨0, "a", 5⟩]) :=
  (C1_register_postcondition ⟨2, [⟨0, "a", 5⟩]⟩ 1 "b" 3
    (by decide) (by decide)).1 (by decide)

/-- C4: `best()` returns none on the empty leaderboard; on a nonempty sorted
leaderboard it returns the path of an entry carrying the lowest score.  In
the embedding `get_best_model` is a pure function of the state, so it
performs no mutation; the last conjunct records that with no intervening
`register` call (an empty call sequence) the state, and hence the value
returned by repeated calls, is unchanged. -/
theorem C4_best (lb : CheckpointsLeaderboard) (hs : sortedByScore lb.entries) :
    (lb.entries = [] → get_best_model lb = none) ∧
    (lb.entries ≠ [] →
       ∃ e, e ∈ lb.entries ∧ get_best_model lb = some e.path ∧
         ∀ x ∈ lb.entries, e.score ≤ x.score) ∧
    get_best_model (runRegisters lb []) = get_best_model lb := by
  refine ⟨?_, ?_, rfl⟩
  · intro h
    rw [get_best_model, h]
    rfl
  · intro hne
    cases hL : lb.entries with
    | nil => exact absurd hL hne
    | cons a t =>
      refine ⟨a, List.mem_cons_self a t, ?_, ?_⟩
      · rw [get_best_model, hL]
        rfl
      · rw [hL] at hs
        rw [sortedByScore, List.pairwise_cons] at hs
        intro x hx
        rcases List.mem_cons.mp hx with rfl | hxt
        · exact le_refl _
        · exact hs.1 x hxt

theorem C4_best_witness :
    ((⟨2, [⟨1, "b", 3⟩, ⟨0, "a", 5⟩]⟩ : CheckpointsLeaderboard).entries = [] →
       get_best_model ⟨2, [⟨1, "b", 3⟩, ⟨0, "a", 5⟩]⟩ = none) ∧
    ((⟨2, [⟨1, "b", 3⟩, ⟨0, "a", 5⟩]⟩ : CheckpointsLeaderboard).entries ≠ [] →
       ∃ e, e ∈ (⟨2, [⟨1, "b", 3⟩, ⟨0, "a", 5⟩]⟩ : CheckpointsLeaderboard).entries ∧
         get_best_model ⟨2, [⟨1, "b", 3⟩, ⟨0, "a", 5⟩]⟩ = some e.path ∧
         ∀ x ∈ (⟨2, [⟨1, "b", 3⟩, ⟨0, "a", 5⟩]⟩ : CheckpointsLeaderboard).entries,
           e.score ≤ x.score) ∧
    get_best_model (runRegisters ⟨2, [⟨1, "b", 3⟩, ⟨0, "a", 5⟩]⟩ []) =
      get_best_model ⟨2, [⟨1, "b", 3⟩, ⟨0, "a", 5⟩]⟩ :=
  C4_best ⟨2, [⟨1, "b", 3⟩, ⟨0, "a", 5⟩]⟩ (by decide)

/-- C5: construction fails with `InvalidConfiguration` exactly when the
requested capacity is nonpositive (no leaderboard value is produced), and
succeeds for every positive capacity, yielding an empty leaderboard with
that capacity. -/
theorem C5_construction (capacity : Int) :
    (capacity ≤ 0 →
       CheckpointsLeaderboard.new capacity = .error .invalidConfiguration) ∧
    (0 < capacity →
       ∃ lb, CheckpointsLeaderboard.new capacity = .ok lb ∧
         (lb.capacity : Int) = capacity ∧ lb.entries = []) := by
  constructor
  · intro h
    rw [CheckpointsLeaderboard.new, if_pos h]
  · intro h
    rw [CheckpointsLeaderboard.new, if_neg (not_le.mpr h)]
    exact ⟨_, rfl, by simp [Int.toNat_of_nonneg (le_of_lt h)], rfl⟩

theorem C5_construction_witness :
    CheckpointsLeaderboard.new (-1) = .error .invalidConfiguration ∧
    ∃ lb, CheckpointsLeaderboard.new 3 = .ok lb ∧
      (lb.capacity : Int) = 3 ∧ lb.entries = [] :=
  ⟨(C5_construction (-1)).1 (by decide), (C5_construction 3).2 (by decide)⟩

/-- C6: a NaN score is rejected with `InvalidInput` in every leaderboard
state.  Atomicity: in the embedding an error result carries no successor
state — the caller keeps the leaderboard it passed in, so a failed call
leaves the state exactly as before — and the second conjunct states that
every call either fully succeeds with an updated state or fully fails with
an error. -/
theorem C6_nan_rejected_atomic (lb : CheckpointsLeaderboard) (epoch : Nat)
    (path : String) :
    register_checkpoint lb epoch path .nan = .error .invalidInput ∧
    ∀ score,
      (∃ lb' a ev, register_checkpoint lb epoch path score = .ok (lb', a, ev)) ∨
      ∃ err, register_checkpoint lb epoch path score = .error err := by
  refine ⟨rfl, ?_⟩
  intro score
  cases hr : register_checkpoint lb epoch path score with
  | ok v => exact Or.inl ⟨v.1, v.2.1, v.2.2, rfl⟩
  | error e => exact Or.inr ⟨e, rfl⟩

/-- Where `insertSorted` puts the new entry in a sorted list: after every
existing entry of smaller or equal score and before every entry of strictly
greater score. -/
theorem insertSorted_split (e : Entry) :
    ∀ l : List Entry, sortedByScore l →
      ∃ l₁ l₂, l = l₁ ++ l₂ ∧ insertSorted e l = l₁ ++ e :: l₂ ∧
        (∀ x ∈ l₁, x.score ≤ e.score) ∧ ∀ x ∈ l₂, e.score < x.score := by
  intro l
  induction l with
  | nil => exact fun _ => ⟨[], [], rfl, rfl, by simp, by simp⟩
  | cons a t ih =>
    intro hs
    rw [sortedByScore, List.pairwise_cons] at hs
    obtain ⟨ha, ht⟩ := hs
    by_cases hlt : e.score < a.score
    · refine ⟨[], a :: t, rfl, ?_, by simp, ?_⟩
      · rw [insertSorted, if_pos hlt]
        rfl
      · intro x hx
        rcases List.mem_cons.mp hx with rfl | hxt
        · exact hlt
        · exact lt_of_lt_of_le hlt (ha x hxt)
    · obtain ⟨l₁, l₂, he1, he2, h1, h2⟩ := ih ht
      refine ⟨a :: l₁, l₂, by rw [List.cons_append, ← he1], ?_, ?_, h2⟩
      · rw [insertSorted, if_neg hlt, he2]
        rfl
      · intro x hx
        rcases List.mem_cons.mp hx with rfl | hx₁
        · exact le_of_not_lt hlt
        · exact h1 x hx₁

/-- C7: tie-break stability.  Below capacity, an entry whose score equals an
existing score is inserted after every entry of smaller or equal score (the
earlier-registered entry keeps priority in the ordering — all existing
entries of equal score land in the prefix `l₁`).  At capacity, an incoming
score equal to the current worst score is not strictly smaller, so the call
is rejected and the earlier entry is not evicted. -/
theorem C7_tie_break (lb : CheckpointsLeaderboard) (epoch : Nat)
    (path : String) (s : ℚ)
    (hfresh : ∀ x ∈ lb.entries, x.epoch ≠ epoch)
    (hsorted : sortedByScore lb.entries) :
    (lb.entries.length < lb.capacity →
       ∃ l₁ l₂, lb.entries = l₁ ++ l₂ ∧
         register_checkpoint lb epoch path (.finite s) =
           .ok (⟨lb.capacity, l₁ ++ ⟨epoch, path, s⟩ :: l₂⟩, true, none) ∧
         (∀ x ∈ l₁, x.score ≤ s) ∧ ∀ x ∈ l₂, s < x.score) ∧
    (∀ worst, lb.entries.getLast? = some worst →
       ¬ lb.entries.length < lb.capacity → s = worst.score →
       register_checkpoint lb epoch path (.finite s) = .ok (lb, false, none)) := by
  have hany := any_epoch_eq_false hfresh
  constructor
  · intro hlen
    obtain ⟨l₁, l₂, he1, he2, h1, h2⟩ :=
      insertSorted_split ⟨epoch, path, s⟩ lb.entries hsorted
    refine ⟨l₁, l₂, he1, ?_, h1, h2⟩
    simp [register_checkpoint, hany, hlen, he2]
  · intro worst hw hlen hs
    have hnlt : ¬ s < worst.score := by rw [hs]; exact lt_irrefl _
    simp [register_checkpoint, hany, hlen, hw, hnlt]

theorem C7_tie_break_witness :
    register_checkpoint ⟨1, [⟨0, "a", 5⟩]⟩ 1 "b" (.finite 5) =
      .ok (⟨1, [⟨0, "a", 5⟩]⟩, false, none) :=
  (C7_tie_break ⟨1, [⟨0, "a", 5⟩]⟩ 1 "b" 5 (by decide) (by decide)).2
    ⟨0, "a", 5⟩ rfl (by decide) rfl

example :
    run_training_epoch ⟨1, []⟩ (some [2]) 0 "t" =
      .ok ⟨⟨1, [⟨0, "t/checkpoints/0", 2⟩]⟩, true,
        [FsAction.saveCheckpoint "t/checkpoints/0"], [(0, "t/checkpoints/0")]⟩ := by
  have hval : run_validation_epoch [2] = some 2 := by
    rw [run_validation_epoch]
    norm_num
  simp only [run_training_epoch, List.length_singleton, hval]
  norm_num [register_checkpoint, insertSorted, checkpointDir]
  decide

example :
    run_training_epoch ⟨1, [⟨0, "a", 1⟩]⟩ (some [5]) 1 "t" =
      .ok ⟨⟨1, [⟨0, "a", 1⟩]⟩, true, [], [(1, "t/checkpoints/1")]⟩ := by
  have hval : run_validation_epoch [5] = some 5 := by
    rw [run_validation_epoch]
    norm_num
  simp only [run_training_epoch, List.length_singleton, hval]
  norm_num [register_checkpoint, checkpointDir]
  decide

/-- Successful path of `run_training_epoch`: a nonempty validation loader
runs validation and registers the checkpoint at `checkpointDir`; the save
action appears exactly when admitted and the remove action exactly when an
eviction was returned. -/
theorem run_training_epoch_ok (lb : CheckpointsLeaderboard)
    (batchLosses : List ℚ) (e : Nat) (d : String)
    {lb' : CheckpointsLeaderboard} {a : Bool} {ev : Option String}
    (hne : batchLosses.length ≠ 0)
    (hreg : register_checkpoint lb e (checkpointDir d e)
        (.finite (batchLosses.sum / (batchLosses.length : ℚ))) =
        .ok (lb', a, ev)) :
    run_training_epoch lb (some batchLosses) e d =
      .ok ⟨lb', true,
        (if a then [FsAction.saveCheckpoint (checkpointDir d e)] else []) ++
        removeActions ev,
        [(e, checkpointDir d e)]⟩ := by
  have hv : run_validation_epoch batchLosses =
      some (batchLosses.sum / (batchLosses.length : ℚ)) := by
    rw [run_validation_epoch, if_neg hne]
  simp only [run_training_epoch, if_neg hne, hv, hreg]
  cases ev <;> rfl

/-- C10: the validation guard (training.py:242-243).  With `val_loader =
None` or a loader of zero batches, `run_training_epoch` returns early: no
validation runs, no checkpoint is registered, nothing is saved or removed,
and the leaderboard is exactly the one passed in.  The final conjunct shows
the guard also keeps the embedded ZeroDivisionError of
`run_validation_epoch` (the division by `len(loader)`) unreachable from
this call site on every input. -/
theorem C10_validation_guard (lb : CheckpointsLeaderboard)
    (val_loader : Option (List ℚ)) (epoch_number : Nat)
    (training_dir : String) :
    (run_training_epoch lb none epoch_number training_dir =
       .ok ⟨lb, false, [], []⟩) ∧
    (∀ l : List ℚ, l.length = 0 →
       run_training_epoch lb (some l) epoch_number training_dir =
         .ok ⟨lb, false, [], []⟩) ∧
    run_training_epoch lb val_loader epoch_number training_dir ≠
      .error RunError.zeroDivision := by
  refine ⟨rfl, ?_, ?_⟩
  · intro l hl
    simp [run_training_epoch, hl]
  · cases val_loader with
    | none => simp [run_training_epoch]
    | some l =>
      by_cases hl : l.length = 0
      · simp [run_training_epoch, hl]
      · have hv : run_validation_epoch l = some (l.sum / (l.length : ℚ)) := by
          rw [run_validation_epoch, if_neg hl]
        simp only [run_training_epoch, if_neg hl, hv]
        cases hr : register_checkpoint lb epoch_number
            (checkpointDir training_dir epoch_number)
            (.finite (l.sum / (l.length : ℚ))) with
        | error err => simp
        | ok v =>
          obtain ⟨lb', a, ev⟩ := v
          simp

theorem C10_validation_guard_witness :
    (run_training_epoch ⟨3, []⟩ none 0 "t" = .ok ⟨⟨3, []⟩, false, [], []⟩) ∧
    (run_training_epoch ⟨3, []⟩ (some []) 0 "t" =
       .ok ⟨⟨3, []⟩, false, [], []⟩) ∧
    run_training_epoch ⟨3, []⟩ (some []) 0 "t" ≠ .error RunError.zeroDivision :=
  ⟨(C10_validation_guard ⟨3, []⟩ (some []) 0 "t").1,
   (C10_validation_guard ⟨3, []⟩ (some []) 0 "t").2.1 [] rfl,
   (C10_validation_guard ⟨3, []⟩ (some []) 0 "t").2.2⟩

/-- C8: caller-side contract of the training loop (training.py:252-264).
When validation runs, `run_training_epoch` registers exactly once at
`checkpointDir`; the checkpoint artifact is written to the registered path
iff the register call returned admitted (`should_save`) = true — and only
to that path — and a checkpoint directory is deleted iff the register call
returned a non-none evicted (`to_remove`) path, in which case exactly that
path is deleted. -/
theorem C8_caller_contract (lb : CheckpointsLeaderboard)
    (batchLosses : List ℚ) (epoch_number : Nat) (training_dir : String)
    (lb' : CheckpointsLeaderboard) (a : Bool) (ev : Option String)
    (hne : batchLosses.length ≠ 0)
    (hreg : register_checkpoint lb epoch_number
        (checkpointDir training_dir epoch_number)
        (.finite (batchLosses.sum / (batchLosses.length : ℚ))) =
        .ok (lb', a, ev)) :
    ∃ o : EpochOutcome,
      run_training_epoch lb (some batchLosses) epoch_number training_dir =
        .ok o ∧
      o.lb = lb' ∧ o.validationRan = true ∧
      o.registerCalls =
        [(epoch_number, checkpointDir training_dir epoch_number)] ∧
      (∀ p, FsAction.saveCheckpoint p ∈ o.actions ↔
         a = true ∧ p = checkpointDir training_dir epoch_number) ∧
      (∀ p, FsAction.removeCheckpoint p ∈ o.actions ↔ ev = some p) := by
  refine ⟨_, run_training_epoch_ok lb batchLosses epoch_number training_dir
    hne hreg, rfl, rfl, rfl, ?_, ?_⟩
  · intro p
    cases a <;> cases ev <;> simp [removeActions, eq_comm]
  · intro p
    cases a <;> cases ev <;> simp [removeActions, eq_comm]

theorem C8_caller_contract_witness :
    ∃ o : EpochOutcome,
      run_training_epoch ⟨1, []⟩ (some [2]) 0 "t" = .ok o ∧
      o.lb = ⟨1, [⟨0, checkpointDir "t" 0,
          ([(2 : ℚ)].sum / (([(2 : ℚ)].length : ℚ)))⟩]⟩ ∧
      o.validationRan = true ∧
      o.registerCalls = [(0, checkpointDir "t" 0)] ∧
      (∀ p, FsAction.saveCheckpoint p ∈ o.actions ↔
         true = true ∧ p = checkpointDir "t" 0) ∧
      (∀ p, FsAction.removeCheckpoint p ∈ o.actions ↔
         (none : Option String) = some p) :=
  C8_caller_contract ⟨1, []⟩ [2] 0 "t"
    ⟨1, [⟨0, checkpointDir "t" 0, ([(2 : ℚ)].sum / (([(2 : ℚ)].length : ℚ)))⟩]⟩
    true none (by decide) rfl

/-- Epochs present after a successful `register`: the registered epoch or
an epoch already present before the call. -/
theorem register_ok_mem {lb : CheckpointsLeaderboard} {epoch : Nat}
    {path : String} {score : FVal} {lb' : CheckpointsLeaderboard} {a : Bool}
    {ev : Option String}
    (h : register_checkpoint lb epoch path score = .ok (lb', a, ev)) :
    ∀ x ∈ lb'.entries, x.epoch = epoch ∨ x ∈ lb.entries := by
  obtain ⟨-, s, -, hc⟩ := register_ok_entries h
  intro x hx
  rcases hc with ⟨-, he⟩ | ⟨-, -, he⟩ | rfl
  · rw [he] at hx
    rcases mem_insertSorted.mp hx with rfl | hx
    · exact Or.inl rfl
    · exact Or.inr hx
  · rw [he] at hx
    rcases mem_insertSorted.mp hx with rfl | hx
    · exact Or.inl rfl
    · exact Or.inr ((List.dropLast_sublist lb.entries).subset hx)
  · exact Or.inr hx

/-- `register` with a finite score and a fresh epoch never raises. -/
theorem register_finite_fresh_ok (lb : CheckpointsLeaderboard) (epoch : Nat)
    (path : String) (s : ℚ)
    (hfresh : ∀ x ∈ lb.entries, x.epoch ≠ epoch) :
    ∃ lb' a ev,
      register_checkpoint lb epoch path (.finite s) = .ok (lb', a, ev) := by
  have hany := any_epoch_eq_false hfresh
  by_cases hlen : lb.entries.length < lb.capacity
  · exact ⟨{ lb with entries := insertSorted ⟨epoch, path, s⟩ lb.entries },
      true, none, by simp [register_checkpoint, hany, hlen]⟩
  · cases hw : lb.entries.getLast? with
    | none => exact ⟨lb, false, none,
        by simp [register_checkpoint, hany, hlen, hw]⟩
    | some worst =>
      by_cases hlt : s < worst.score
      · exact ⟨{ lb with
            entries := insertSorted ⟨epoch, path, s⟩ lb.entries.dropLast },
          true, some worst.path,
          by simp [register_checkpoint, hany, hlen, hw, hlt]⟩
      · exact ⟨lb, false, none,
          by simp [register_checkpoint, hany, hlen, hw, hlt]⟩

/-- With no validation loader, or a loader of zero batches, the epoch loop
registers nothing, performs no filesystem action and leaves the leaderboard
untouched. -/
theorem runEpochs_inactive (val_loader : Option Nat)
    (batchLoss : Nat → Nat → ℚ) (d : String)
    (h : val_loader = none ∨ val_loader = some 0) :
    ∀ (es : List Nat) (lb : CheckpointsLeaderboard),
      runEpochs val_loader batchLoss d lb es = .ok (lb, [], []) := by
  intro es
  induction es with
  | nil => intro lb; rfl
  | cons e es ih =>
    intro lb
    rcases h with rfl | rfl
    · have h1 : run_training_epoch lb none e d = .ok ⟨lb, false, [], []⟩ := rfl
      simp [runEpochs, h1, ih lb]
    · have h1 : run_training_epoch lb (some ([] : List ℚ)) e d =
          .ok ⟨lb, false, [], []⟩ := rfl
      simp [runEpochs, h1, ih lb]

/-- With a nonempty validation loader the epoch loop never raises and
registers exactly one checkpoint per epoch, at that epoch's
`checkpointDir`, in the order of the epoch list.  Freshness is maintained:
the epoch list is strictly increasing and the leaderboard only ever holds
epochs already visited, so the duplicate-epoch rejection is never hit. -/
theorem runEpochs_active (n : Nat) (hn : n ≠ 0) (batchLoss : Nat → Nat → ℚ)
    (d : String) :
    ∀ (es : List Nat) (lb : CheckpointsLeaderboard),
      es.Pairwise (· < ·) →
      (∀ x ∈ lb.entries, ∀ e ∈ es, x.epoch ≠ e) →
      ∃ lbf acts, runEpochs (some n) batchLoss d lb es =
        .ok (lbf, acts, es.map fun e => (e, checkpointDir d e)) := by
  intro es
  induction es with
  | nil => exact fun lb _ _ => ⟨lb, [], rfl⟩
  | cons e es ih =>
    intro lb hpw hfresh
    rw [List.pairwise_cons] at hpw
    obtain ⟨hlt_all, hpw'⟩ := hpw
    have hfresh_e : ∀ x ∈ lb.entries, x.epoch ≠ e := fun x hx =>
      hfresh x hx e (List.mem_cons_self e es)
    have hlenL : ((List.range n).map (batchLoss e)).length = n := by simp
    have hne : ((List.range n).map (batchLoss e)).length ≠ 0 := by
      rw [hlenL]; exact hn
    obtain ⟨lb', a, ev, hreg⟩ := register_finite_fresh_ok lb e
      (checkpointDir d e)
      (((List.range n).map (batchLoss e)).sum /
        ((((List.range n).map (batchLoss e)).length : ℕ) : ℚ)) hfresh_e
    have hepoch := run_training_epoch_ok lb ((List.range n).map (batchLoss e))
      e d hne hreg
    have hfresh' : ∀ x ∈ lb'.entries, ∀ e' ∈ es, x.epoch ≠ e' := by
      intro x hx e' he'
      rcases register_ok_mem hreg x hx with hxe | hxlb
      · rw [hxe]
        exact Nat.ne_of_lt (hlt_all e' he')
      · exact hfresh x hxlb e' (List.mem_cons_of_mem e he')
    obtain ⟨lbf, acts, hrec⟩ := ih lb' hpw' hfresh'
    refine ⟨lbf,
      ((if a = true then [FsAction.saveCheckpoint (checkpointDir d e)]
        else []) ++ removeActions ev) ++ acts, ?_⟩
    rw [runEpochs]
    have hmap : ((some n).map fun k => (List.range k).map (batchLoss e)) =
        some ((List.range n).map (batchLoss e)) := rfl
    rw [hmap, hepoch]
    dsimp only
    rw [hrec]
    rfl

/-- With enough fuel, `Nat.toDigitsCore` in base 10 prepends exactly the
decimal digits of its argument. -/
theorem toDigitsCore_eq (f : Nat) :
    ∀ (n : Nat) (ds : List Char), n < f →
      Nat.toDigitsCore 10 f n ds = natChars n ++ ds := by
  induction f with
  | zero => omega
  | succ f ih =>
    intro n ds h
    rw [Nat.toDigitsCore]
    by_cases h10 : n / 10 = 0
    · have hn : n < 10 := by omega
      rw [if_pos h10, natChars, dif_pos hn, Nat.mod_eq_of_lt hn]
      rfl
    · have hn : ¬ n < 10 := by omega
      have hdiv : n / 10 < f := by
        have h1 : n / 10 < n := Nat.div_lt_self (by omega) (by omega)
        omega
      rw [if_neg h10, ih (n / 10) (Nat.digitChar (n % 10) :: ds) hdiv]
      conv_rhs => rw [natChars]
      rw [dif_neg hn, List.append_assoc]
      rfl

theorem repr_eq_natChars (n : Nat) : Nat.repr n = (natChars n).asString := by
  rw [Nat.repr, Nat.toDigits, toDigitsCore_eq (n + 1) n [] (Nat.lt_succ_self n),
    List.append_nil]

theorem charVal_digitChar (k : Nat) (h : k < 10) :
    charVal (Nat.digitChar k) = k := by
  interval_cases k <;> rfl

/-- Folding the decimal digits of `n` onto an accumulator recovers `n`. -/
theorem foldl_natChars (n : Nat) :
    ∀ a : Nat, (natChars n).foldl (fun acc c => 10 * acc + charVal c) a =
      a * 10 ^ (natChars n).length + n := by
  induction n using Nat.strong_induction_on with
  | _ n ih =>
    intro a
    by_cases h : n < 10
    · rw [natChars, dif_pos h]
      simp [List.foldl, charVal_digitChar n h]
      omega
    · have hd : n / 10 < n := Nat.div_lt_self (by omega) (by omega)
      rw [natChars, dif_neg h, List.foldl_append, List.length_append,
        ih (n / 10) hd a]
      simp [List.foldl, charVal_digitChar (n % 10) (Nat.mod_lt n (by omega))]
      rw [Nat.pow_succ, ← Nat.mul_assoc]
      have hmod := Nat.div_add_mod n 10
      generalize a * 10 ^ (natChars (n / 10)).length = t
      omega

theorem natChars_injective : Function.Injective natChars := by
  intro m n h
  have hm := foldl_natChars m 0
  have hn := foldl_natChars n 0
  rw [h] at hm
  rw [hm] at hn
  omega

theorem Nat_repr_injective : Function.Injective Nat.repr := by
  intro m n h
  rw [repr_eq_natChars, repr_eq_natChars] at h
  exact natChars_injective (congrArg String.data h)

/-- Distinct epochs get distinct checkpoint directories. -/
theorem checkpointDir_injective (d : String) :
    Function.Injective (checkpointDir d) := by
  intro m n h
  apply Nat_repr_injective
  apply String.ext
  unfold checkpointDir at h
  have hd := congrArg String.data h
  simp only [String.data_append, List.append_assoc] at hd
  exact List.append_cancel_left (List.append_cancel_left hd)

/-- C9: driver invariant of `run_training_loop` (training.py:193-204 and
251-256).  Starting from a freshly constructed leaderboard the loop never
raises and registers at most once per epoch — never, when the validation
loader is absent or empty; otherwise exactly once per epoch with epoch
numbers strictly increasing through `0, ..., training_epochs - 1`, each
paired with the path `checkpointDir training_dir epoch` (ending in
`checkpoints/<epoch>`), all paths distinct.  In particular the
duplicate-epoch case left open by the spec is never exercised by this
caller. -/
theorem C9_driver_trace (capacity : Int) (lb0 : CheckpointsLeaderboard)
    (hnew : CheckpointsLeaderboard.new capacity = .ok lb0)
    (val_loader : Option Nat) (batchLoss : Nat → Nat → ℚ)
    (training_epochs : Nat) (d : String) :
    ∃ lbf acts calls,
      run_training_loop lb0 val_loader batchLoss training_epochs d =
        .ok (lbf, acts, calls) ∧
      ((val_loader = none ∨ val_loader = some 0) → calls = []) ∧
      (∀ n, val_loader = some n → n ≠ 0 →
         calls = (List.range training_epochs).map
           fun e => (e, checkpointDir d e)) ∧
      (calls.map Prod.fst).Pairwise (· < ·) ∧
      (calls.map Prod.fst).Nodup ∧
      (∀ c ∈ calls, c.2 = checkpointDir d c.1) ∧
      (calls.map Prod.snd).Nodup := by
  have hentries : lb0.entries = [] := by
    unfold CheckpointsLeaderboard.new at hnew
    split at hnew
    · exact absurd hnew (by simp)
    · simp only [Except.ok.injEq] at hnew
      rw [← hnew]
  cases val_loader with
  | none =>
    refine ⟨lb0, [], [],
      runEpochs_inactive none batchLoss d (Or.inl rfl) _ lb0,
      fun _ => rfl, ?_, by simp, by simp, by simp, by simp⟩
    intro n hn
    exact absurd hn (by simp)
  | some n =>
    by_cases hn : n = 0
    · subst hn
      refine ⟨lb0, [], [],
        runEpochs_inactive (some 0) batchLoss d (Or.inr rfl) _ lb0,
        fun _ => rfl, ?_, by simp, by simp, by simp, by simp⟩
      intro m hm hm0
      have : 0 = m := by simpa using hm
      exact absurd this.symm hm0
    · obtain ⟨lbf, acts, hrun⟩ := runEpochs_active n hn batchLoss d
        (List.range training_epochs) lb0 (List.pairwise_lt_range _)
        (by rw [hentries]; intro x hx; exact absurd hx (List.not_mem_nil x))
      have hfst : (((List.range training_epochs).map
          fun e => (e, checkpointDir d e)).map Prod.fst) =
          List.range training_epochs := by
        simp [List.map_map, Function.comp_def]
      have hsnd : (((List.range training_epochs).map
          fun e => (e, checkpointDir d e)).map Prod.snd) =
          (List.range training_epochs).map (checkpointDir d) := by
        simp [List.map_map, Function.comp_def]
      refine ⟨lbf, acts, _, hrun, ?_, ?_, ?_, ?_, ?_, ?_⟩
      · rintro (h | h)
        · simp at h
        · simp only [Option.some.injEq] at h
          exact absurd h hn
      · intro m hm hm0
        rfl
      · rw [hfst]
        exact List.pairwise_lt_range _
      · rw [hfst]
        exact List.nodup_range _
      · intro c hc
        obtain ⟨e, he, rfl⟩ := List.mem_map.mp hc
        rfl
      · rw [hsnd]
        exact (List.nodup_range _).map (checkpointDir_injective d)

theorem C9_driver_trace_witness :
    ∃ lbf acts calls,
      run_training_loop ⟨2, []⟩ (some 1) (fun _ _ => (1 : ℚ)) 2 "t" =
        .ok (lbf, acts, calls) ∧
      (((some 1 : Option Nat) = none ∨ (some 1 : Option Nat) = some 0) →
         calls = []) ∧
      (∀ n, (some 1 : Option Nat) = some n → n ≠ 0 →
         calls = (List.range 2).map fun e => (e, checkpointDir "t" e)) ∧
      (calls.map Prod.fst).Pairwise (· < ·) ∧
      (calls.map Prod.fst).Nodup ∧
      (∀ c ∈ calls, c.2 = checkpointDir "t" c.1) ∧
      (calls.map Prod.snd).Nodup :=
  C9_driver_trace 2 ⟨2, []⟩ rfl (some 1) (fun _ _ => 1) 2 "t"
